import Mathlib

/-!
Shallow embedding of the sorting core of `interface_classes.py`: the ordering
policy `_should_swap`, the five sorting algorithms (bubble, selection,
insertion, merge, quick), the Strategy selector, and the canonical stable sort
that the specification measures the algorithms against.

Items are opaque values of a type `T`; keys live in a linearly ordered type
`K`.  Python's `key=None` default (identity) is a special case of an explicit
key function, so every embedded algorithm takes the key function explicitly.
-/

namespace SortCore

variable {T : Type} {K : Type} [LinearOrder K]

/-- Embeds `_should_swap` (interface_classes.py line 47): the pair taken in
(a, b) order violates the desired ordering, `a_key < b_key if reverse else
a_key > b_key`. -/
def should_swap (aKey bKey : K) (reverse : Bool) : Bool :=
  if reverse then decide (aKey < bKey) else decide (aKey > bKey)

/-- Keys in (a, b) order respect the desired ordering: the negation of
`should_swap`. -/
def keyle (r : Bool) (a b : K) : Prop := should_swap a b r = false

/-- Elementwise ordering induced by the key function: `rle k r a b` holds when
the pair (a, b) is in policy order. -/
def rle (k : T → K) (r : Bool) (a b : T) : Prop := keyle r (k a) (k b)

/-- Sublist of the elements whose key equals `c`, in list order; stability of a
sort means every such sublist is preserved. -/
def keyFilter (k : T → K) (c : K) (l : List T) : List T :=
  l.filter (fun x => decide (k x = c))

/-- One bounded bubble pass: embeds the inner `for i in range(end)` loop of
`bubble_sort`, where `e` is the number of adjacent comparisons still to do
(`end`) and the returned flag is `swapped`. -/
def bpass (k : T → K) (r : Bool) : Nat → List T → List T × Bool
  | 0, l => (l, false)
  | _ + 1, [] => ([], false)
  | _ + 1, [x] => ([x], false)
  | e + 1, x :: y :: rest =>
    if should_swap (k x) (k y) r then
      (y :: (bpass k r e (x :: rest)).1, true)
    else
      let p := bpass k r e (y :: rest)
      (x :: p.1, p.2)

/-- The outer `for end in range(n - 1, 0, -1)` loop of `bubble_sort`, with the
early exit taken when a pass performs no swap. -/
def bloop (k : T → K) (r : Bool) : Nat → List T → List T
  | 0, l => l
  | e + 1, l =>
    let p := bpass k r (e + 1) l
    if p.2 then bloop k r e p.1 else p.1

/-- Embeds `bubble_sort` (interface_classes.py lines 56-70). -/
def bubble_sort (data : List T) (k : T → K) (r : Bool) : List T :=
  bloop k r (data.length - 1) data

/-- Embeds the inner `for j in range(i + 1, n)` scan of `selection_sort`: it
carries the current best element together with its index (`best_idx`) and the
index `pos` of the next candidate, and returns the final best index and best
element.  The scan never writes to the list, so carrying the best element
alongside its index is exactly the source's repeated `items[best_idx]` read. -/
def best_pair (k : T → K) (r : Bool) (best : T) (bidx pos : Nat) :
    List T → Nat × T
  | [] => (bidx, best)
  | y :: ys =>
    if should_swap (k best) (k y) r then best_pair k r y pos (pos + 1) ys
    else best_pair k r best bidx (pos + 1) ys

/-- Embeds the outer `for i in range(n)` loop of `selection_sort`: one
iteration per unit of `fuel` (called with `fuel = n`, and the list length never
changes, so the fuel never runs out early).  Each iteration finds the best
index in the unsorted remainder and, when it differs from the current
position, swaps the two entries. -/
def selGo (k : T → K) (r : Bool) : Nat → List T → List T
  | 0, l => l
  | _ + 1, [] => []
  | fuel + 1, x :: rest =>
    let p := best_pair k r x 0 1 rest
    if p.1 = 0 then x :: selGo k r fuel rest
    else rest.getD (p.1 - 1) x :: selGo k r fuel (rest.set (p.1 - 1) x)

/-- Embeds `selection_sort` (interface_classes.py lines 73-86). -/
def selection_sort (data : List T) (k : T → K) (r : Bool) : List T :=
  selGo k r data.length data

/-- Embeds the inner `while j >= 0 and _should_swap(...)` loop of
`insertion_sort`.  The already sorted prefix is kept reversed, so walking it
from the head is the source's right-to-left scan from index `i - 1`: elements
that should swap with `current` are shifted past it, and `current` lands just
in front of the first element that should not. -/
def shiftIns (k : T → K) (r : Bool) (x : T) (xkey : K) : List T → List T
  | [] => [x]
  | e :: rest =>
    if should_swap (k e) xkey r then e :: shiftIns k r x xkey rest
    else x :: e :: rest

/-- Embeds `insertion_sort` (interface_classes.py lines 89-103): fold over the
input inserting each element into the reversed sorted prefix, then reverse
once at the end. -/
def insertion_sort (data : List T) (k : T → K) (r : Bool) : List T :=
  (data.foldl (fun acc x => shiftIns k r x (k x) acc) []).reverse

/-- Embeds the nested `merge` of `merge_sort`: while both sides are nonempty,
take the right head when the pair in (left, right) order violates the
ordering, otherwise the left head; leftovers are appended at the end. -/
def mergeLists (k : T → K) (r : Bool) : List T → List T → List T
  | [], ys => ys
  | x :: xs, [] => x :: xs
  | x :: xs, y :: ys =>
    if should_swap (k x) (k y) r then y :: mergeLists k r (x :: xs) ys
    else x :: mergeLists k r xs (y :: ys)
termination_by l1 l2 => l1.length + l2.length

/-- Embeds the nested recursive `sort` of `merge_sort`: lists of length at
most one are returned as is, otherwise split at `len(seq) // 2` and merge the
recursively sorted halves. -/
def msort (k : T → K) (r : Bool) (l : List T) : List T :=
  if h : l.length ≤ 1 then l
  else
    mergeLists k r (msort k r (l.take (l.length / 2)))
      (msort k r (l.drop (l.length / 2)))
termination_by l.length
decreasing_by
  · simp only [List.length_take]
    omega
  · simp only [List.length_drop]
    omega

/-- Embeds `merge_sort` (interface_classes.py lines 106-131). -/
def merge_sort (data : List T) (k : T → K) (r : Bool) : List T := msort k r data

/-- The `left` bucket of `quick_sort`'s three-way partition: elements whose
key differs from the pivot key and that should not swap with it (the source's
final `else` branch, reached when the first two conditions fail). -/
def qsLeft (k : T → K) (r : Bool) (pk : K) (l : List T) : List T :=
  l.filter (fun x => !decide (k x = pk) && !should_swap (k x) pk r)

/-- The `middle` bucket of `quick_sort`'s partition: elements whose key equals
the pivot key. -/
def qsMiddle (k : T → K) (pk : K) (l : List T) : List T :=
  l.filter (fun x => decide (k x = pk))

/-- The `right` bucket of `quick_sort`'s partition: elements whose key differs
from the pivot key and that should swap with it. -/
def qsRight (k : T → K) (r : Bool) (pk : K) (l : List T) : List T :=
  l.filter (fun x => !decide (k x = pk) && should_swap (k x) pk r)

/-- A filter is strictly shorter than the list when some member fails the
predicate; used for `quick_sort`'s termination. -/
theorem length_filter_lt_of_mem_not {p : T → Bool} {l : List T} {x : T}
    (hx : x ∈ l) (hp : p x = false) : (l.filter p).length < l.length := by
  rw [List.length_filter_lt_length_iff_exists]
  exact ⟨x, hx, by simp [hp]⟩

/-- The pivot itself is excluded from the `left` bucket, so the bucket is
strictly shorter than the partitioned list. -/
theorem qsLeft_length_lt (k : T → K) (r : Bool) (l : List T) (x : T)
    (hx : x ∈ l) : (qsLeft k r (k x) l).length < l.length := by
  unfold qsLeft
  exact length_filter_lt_of_mem_not hx (by simp)

/-- The pivot itself is excluded from the `right` bucket, so the bucket is
strictly shorter than the partitioned list. -/
theorem qsRight_length_lt (k : T → K) (r : Bool) (l : List T) (x : T)
    (hx : x ∈ l) : (qsRight k r (k x) l).length < l.length := by
  unfold qsRight
  exact length_filter_lt_of_mem_not hx (by simp)

/-- Embeds the nested recursive `sort` of `quick_sort`: pivot on the key of
the middle element (`seq[len(seq) // 2]`), partition into three buckets, and
recurse on the outer two. -/
def qsort (k : T → K) (r : Bool) (l : List T) : List T :=
  if h : l.length ≤ 1 then l
  else
    let pk := k (l.get ⟨l.length / 2, Nat.div_lt_self (by omega) (by omega)⟩)
    qsort k r (qsLeft k r pk l) ++ qsMiddle k pk l ++ qsort k r (qsRight k r pk l)
termination_by l.length
decreasing_by
  · exact qsLeft_length_lt k r l _ (List.get_mem _ _ _)
  · exact qsRight_length_lt k r l _ (List.get_mem _ _ _)

/-- Embeds `quick_sort` (interface_classes.py lines 134-160). -/
def quick_sort (data : List T) (k : T → K) (r : Bool) : List T := qsort k r data

/-- Embeds the Strategy selector (`SorterABC`, `SorterProto` and
`SorterCallable` all have this shape): a record holding one strategy of the
shared capability type `sort(data, key, reverse) -> list`. -/
structure Sorter (T K : Type) where
  strategy : List T → (T → K) → Bool → List T

/-- Embeds the selector's `sort` method: forward the call to the held strategy
unchanged. -/
def Sorter.sort (s : Sorter T K) (data : List T) (k : T → K) (r : Bool) :
    List T :=
  s.strategy data k r

/-- Modelled from the spec: `keyA` strictly precedes `keyB` in the desired
order (ascending `keyA < keyB`, descending `keyA > keyB`); used only by the
specification's reference sort `canonicalSort`. -/
def strictPrec (k : T → K) (r : Bool) (a b : T) : Bool :=
  if r then decide (k b < k a) else decide (k a < k b)

/-- Modelled from the spec: insert `x` into an already sorted list directly
before the first element that `x` strictly precedes, hence after every element
of equal key — the insertion step of a canonical stable sort. -/
def canonInsert (k : T → K) (r : Bool) (x : T) : List T → List T
  | [] => [x]
  | y :: ys => if strictPrec k r x y then x :: y :: ys else y :: canonInsert k r x ys

/-- Modelled from the spec: the canonical stable sort under the ordering
policy (key function plus reverse flag) — output sorted under the policy,
elements of equal key kept in input order. -/
def canonicalSort (k : T → K) (r : Bool) (l : List T) : List T :=
  l.foldl (fun acc x => canonInsert k r x acc) []

/-! ## The ordering policy is a total preorder on keys -/

theorem should_swap_false_eq (a b : K) : should_swap a b false = decide (b < a) := by
  simp [should_swap]

theorem should_swap_true_eq (a b : K) : should_swap a b true = decide (a < b) := by
  simp [should_swap]

theorem keyle_false_iff (a b : K) : keyle false a b ↔ a ≤ b := by
  simp [keyle, should_swap_false_eq, not_lt]

theorem keyle_true_iff (a b : K) : keyle true a b ↔ b ≤ a := by
  simp [keyle, should_swap_true_eq, not_lt]

theorem keyle_refl (r : Bool) (a : K) : keyle r a a := by
  cases r <;> simp [keyle_false_iff, keyle_true_iff]

theorem keyle_total (r : Bool) (a b : K) : keyle r a b ∨ keyle r b a := by
  cases r <;> simp [keyle_false_iff, keyle_true_iff] <;> exact le_total _ _

theorem keyle_trans {r : Bool} {a b c : K} (h1 : keyle r a b) (h2 : keyle r b c) :
    keyle r a c := by
  cases r <;> simp [keyle_false_iff, keyle_true_iff] at h1 h2 ⊢ <;>
    exact le_trans (by assumption) (by assumption)

theorem keyle_antisymm {r : Bool} {a b : K} (h1 : keyle r a b) (h2 : keyle r b a) :
    a = b := by
  cases r <;> simp [keyle_false_iff, keyle_true_iff] at h1 h2 <;>
    exact le_antisymm (by assumption) (by assumption)

theorem not_keyle_iff {r : Bool} {a b : K} :
    ¬ keyle r a b ↔ should_swap a b r = true := by
  simp [keyle]

theorem keyle_of_not_keyle {r : Bool} {a b : K} (h : ¬ keyle r a b) :
    keyle r b a ∧ a ≠ b := by
  rcases keyle_total r a b with h1 | h1
  · exact absurd h1 h
  · refine ⟨h1, fun hab => h ?_⟩
    subst hab
    exact keyle_refl r a

theorem rle_refl (k : T → K) (r : Bool) (a : T) : rle k r a a := keyle_refl r (k a)

theorem rle_total (k : T → K) (r : Bool) (a b : T) : rle k r a b ∨ rle k r b a :=
  keyle_total r (k a) (k b)

theorem rle_trans {k : T → K} {r : Bool} {a b c : T} (h1 : rle k r a b)
    (h2 : rle k r b c) : rle k r a c := keyle_trans h1 h2

theorem key_eq_of_rle_rle {k : T → K} {r : Bool} {a b : T} (h1 : rle k r a b)
    (h2 : rle k r b a) : k a = k b := keyle_antisymm h1 h2

instance (k : T → K) (r : Bool) : IsTrans T (rle k r) :=
  ⟨fun _ _ _ => rle_trans⟩

/-! ## Key filters -/

theorem keyFilter_cons (k : T → K) (c : K) (x : T) (l : List T) :
    keyFilter k c (x :: l) =
      if k x = c then x :: keyFilter k c l else keyFilter k c l := by
  by_cases h : k x = c <;> simp [keyFilter, List.filter_cons, h]

theorem mem_keyFilter {k : T → K} {c : K} {l : List T} {x : T} :
    x ∈ keyFilter k c l ↔ x ∈ l ∧ k x = c := by
  simp [keyFilter]

theorem keyFilter_append (k : T → K) (c : K) (l1 l2 : List T) :
    keyFilter k c (l1 ++ l2) = keyFilter k c l1 ++ keyFilter k c l2 :=
  List.filter_append l1 l2

theorem keyFilter_eq_nil_of_keys_ne {k : T → K} {c : K} {l : List T}
    (h : ∀ x ∈ l, k x ≠ c) : keyFilter k c l = [] := by
  induction l with
  | nil => rfl
  | cons y ys ih =>
    rw [keyFilter_cons, if_neg (h y (by simp))]
    exact ih fun x hx => h x (by simp [hx])

/-- Two lists that are sorted under the policy and have identical key filters
are equal: a sorted permutation with the stability property is unique. -/
theorem eq_of_sorted_of_keyFilter_eq {k : T → K} {r : Bool} :
    ∀ {l1 l2 : List T}, l1.Pairwise (rle k r) → l2.Pairwise (rle k r) →
      (∀ c, keyFilter k c l1 = keyFilter k c l2) → l1 = l2 := by
  intro l1
  induction l1 with
  | nil =>
    intro l2 _ _ hf
    cases l2 with
    | nil => rfl
    | cons y t2 =>
      have := hf (k y)
      rw [keyFilter_cons, if_pos rfl] at this
      simp [keyFilter] at this
  | cons x t1 ih =>
    intro l2 h1 h2 hf
    cases l2 with
    | nil =>
      have := hf (k x)
      rw [keyFilter_cons, if_pos rfl] at this
      simp [keyFilter] at this
    | cons y t2 =>
      rw [List.pairwise_cons] at h1 h2
      have hxy : k x = k y := by
        have hx2 : x ∈ y :: t2 := by
          have hm : x ∈ keyFilter k (k x) (y :: t2) := by
            rw [← hf (k x)]
            exact mem_keyFilter.mpr ⟨by simp, rfl⟩
          exact (mem_keyFilter.mp hm).1
        have hy1 : y ∈ x :: t1 := by
          have hm : y ∈ keyFilter k (k y) (x :: t1) := by
            rw [hf (k y)]
            exact mem_keyFilter.mpr ⟨by simp, rfl⟩
          exact (mem_keyFilter.mp hm).1
        rcases List.mem_cons.mp hx2 with hxe | hx2
        · rw [hxe]
        · rcases List.mem_cons.mp hy1 with hye | hy1
          · rw [hye]
          · exact key_eq_of_rle_rle (h1.1 y hy1) (h2.1 x hx2)
      have hhead := hf (k x)
      rw [keyFilter_cons, if_pos rfl, keyFilter_cons, if_pos hxy.symm] at hhead
      have hx_eq_y : x = y := by
        exact (List.cons.injEq _ _ _ _ ▸ hhead).1
      have htail_kx : keyFilter k (k x) t1 = keyFilter k (k x) t2 := by
        exact (List.cons.injEq _ _ _ _ ▸ hhead).2
      have htail : ∀ c, keyFilter k c t1 = keyFilter k c t2 := by
        intro c
        by_cases hc : c = k x
        · rw [hc]
          exact htail_kx
        · have := hf c
          rw [keyFilter_cons, if_neg (fun h => hc h.symm), keyFilter_cons,
            if_neg (fun h => hc (hxy ▸ h.symm))] at this
          exact this
      rw [hx_eq_y, ih h1.2 h2.2 htail]

/-! ## Properties of the canonical stable sort -/

theorem rle_of_not_rle {k : T → K} {r : Bool} {a b : T} (h : ¬ rle k r a b) :
    rle k r b a := (rle_total k r a b).resolve_left h

theorem strictPrec_iff_not_rle {k : T → K} {r : Bool} {a b : T} :
    strictPrec k r a b = true ↔ ¬ rle k r b a := by
  cases r <;>
    simp [strictPrec, rle, keyle_false_iff, keyle_true_iff, not_le]

theorem rle_of_key_eq {k : T → K} {r : Bool} {a b : T} (h : k a = k b) :
    rle k r a b := by
  unfold rle
  rw [h]
  exact keyle_refl r (k b)

theorem rle_of_strictPrec_false {k : T → K} {r : Bool} {a b : T}
    (h : strictPrec k r a b = false) : rle k r b a := by
  by_contra hn
  rw [← strictPrec_iff_not_rle, h] at hn
  simp at hn

theorem canonInsert_perm (k : T → K) (r : Bool) (x : T) (l : List T) :
    List.Perm (canonInsert k r x l) (x :: l) := by
  induction l with
  | nil => exact List.Perm.refl _
  | cons y ys ih =>
    by_cases h : strictPrec k r x y = true
    · simp [canonInsert, h]
    · simp only [canonInsert, h, if_false, Bool.not_eq_true] at *
      rw [if_neg (by simp [h])]
      exact (ih.cons y).trans (List.Perm.swap x y ys)

theorem mem_canonInsert {k : T → K} {r : Bool} {x z : T} {l : List T} :
    z ∈ canonInsert k r x l ↔ z = x ∨ z ∈ l := by
  rw [(canonInsert_perm k r x l).mem_iff]
  exact List.mem_cons

theorem canonInsert_sorted {k : T → K} {r : Bool} {x : T} {l : List T}
    (h : l.Pairwise (rle k r)) :
    (canonInsert k r x l).Pairwise (rle k r) := by
  induction l with
  | nil => simp [canonInsert]
  | cons y ys ih =>
    rw [List.pairwise_cons] at h
    by_cases hs : strictPrec k r x y = true
    · have hnyx : ¬ rle k r y x := strictPrec_iff_not_rle.mp hs
      have hxy : rle k r x y := rle_of_not_rle hnyx
      rw [canonInsert, if_pos hs, List.pairwise_cons]
      refine ⟨fun z hz => ?_, List.pairwise_cons.mpr h⟩
      rcases List.mem_cons.mp hz with hze | hz
      · subst hze
        exact hxy
      · exact rle_trans hxy (h.1 z hz)
    · have hyx : rle k r y x :=
        rle_of_strictPrec_false (Bool.not_eq_true _ ▸ hs)
      rw [canonInsert, if_neg hs, List.pairwise_cons]
      refine ⟨fun z hz => ?_, ih h.2⟩
      rcases mem_canonInsert.mp hz with hze | hz
      · rw [hze]
        exact hyx
      · exact h.1 z hz

theorem canonInsert_keyFilter {k : T → K} {r : Bool} {x : T} {l : List T}
    (h : l.Pairwise (rle k r)) (c : K) :
    keyFilter k c (canonInsert k r x l) = keyFilter k c (l ++ [x]) := by
  induction l with
  | nil => rfl
  | cons y ys ih =>
    rw [List.pairwise_cons] at h
    by_cases hs : strictPrec k r x y = true
    · have hnyx : ¬ rle k r y x := strictPrec_iff_not_rle.mp hs
      have hne : ∀ z ∈ y :: ys, k z ≠ k x := by
        intro z hz hzx
        apply hnyx
        rcases List.mem_cons.mp hz with hze | hz
        · subst hze
          exact rle_of_key_eq hzx
        · exact rle_trans (h.1 z hz) (rle_of_key_eq hzx)
      rw [canonInsert, if_pos hs]
      by_cases hc : k x = c
      · rw [keyFilter_cons, if_pos hc,
          keyFilter_eq_nil_of_keys_ne (fun z hz => hc ▸ hne z hz),
          keyFilter_append,
          keyFilter_eq_nil_of_keys_ne (fun z hz => hc ▸ hne z hz)]
        simp [keyFilter, hc]
      · rw [keyFilter_cons, if_neg hc, keyFilter_append]
        have : keyFilter k c [x] = [] :=
          keyFilter_eq_nil_of_keys_ne (by simpa using hc)
        rw [this, List.append_nil]
    · rw [canonInsert, if_neg hs]
      have step := ih h.2
      by_cases hy : k y = c
      · rw [keyFilter_cons, if_pos hy, step, List.cons_append, keyFilter_cons,
          if_pos hy]
      · rw [keyFilter_cons, if_neg hy, step, List.cons_append, keyFilter_cons,
          if_neg hy]

theorem canonFold_sorted (k : T → K) (r : Bool) :
    ∀ (l acc : List T), acc.Pairwise (rle k r) →
      (l.foldl (fun a x => canonInsert k r x a) acc).Pairwise (rle k r) := by
  intro l
  induction l with
  | nil => exact fun acc h => h
  | cons x xs ih => exact fun acc h => ih _ (canonInsert_sorted h)

theorem canonFold_keyFilter (k : T → K) (r : Bool) :
    ∀ (l acc : List T), acc.Pairwise (rle k r) → ∀ c,
      keyFilter k c (l.foldl (fun a x => canonInsert k r x a) acc) =
        keyFilter k c acc ++ keyFilter k c l := by
  intro l
  induction l with
  | nil =>
    intro acc _ c
    simp [keyFilter]
  | cons x xs ih =>
    intro acc h c
    have step := ih (canonInsert k r x acc) (canonInsert_sorted h) c
    rw [List.foldl_cons, step, canonInsert_keyFilter h, keyFilter_append]
    have hsplit : keyFilter k c (x :: xs) = keyFilter k c [x] ++ keyFilter k c xs := by
      rw [← keyFilter_append]
      rfl
    rw [hsplit, List.append_assoc]

theorem canonFold_perm (k : T → K) (r : Bool) :
    ∀ (l acc : List T),
      List.Perm (l.foldl (fun a x => canonInsert k r x a) acc) (acc ++ l) := by
  intro l
  induction l with
  | nil => simp
  | cons x xs ih =>
    intro acc
    refine (ih (canonInsert k r x acc)).trans ?_
    exact ((canonInsert_perm k r x acc).append_right xs).trans
      List.perm_middle.symm

theorem canonicalSort_sorted (k : T → K) (r : Bool) (l : List T) :
    (canonicalSort k r l).Pairwise (rle k r) :=
  canonFold_sorted k r l [] List.Pairwise.nil

theorem canonicalSort_keyFilter (k : T → K) (r : Bool) (l : List T) (c : K) :
    keyFilter k c (canonicalSort k r l) = keyFilter k c l := by
  have := canonFold_keyFilter k r l [] List.Pairwise.nil c
  simpa [keyFilter] using this

theorem canonicalSort_perm (k : T → K) (r : Bool) (l : List T) :
    List.Perm (canonicalSort k r l) l := by
  have := canonFold_perm k r l []
  simpa using this

theorem canonInsert_eq_append {k : T → K} {r : Bool} {x : T} {l : List T}
    (h : ∀ y ∈ l, rle k r y x) : canonInsert k r x l = l ++ [x] := by
  induction l with
  | nil => rfl
  | cons y ys ih =>
    have hyx : rle k r y x := h y (by simp)
    have hs : ¬ strictPrec k r x y = true := fun hs =>
      (strictPrec_iff_not_rle.mp hs) hyx
    rw [canonInsert, if_neg hs, ih fun z hz => h z (by simp [hz])]
    rfl

theorem canonFold_of_sorted {k : T → K} {r : Bool} :
    ∀ (l acc : List T), (acc ++ l).Pairwise (rle k r) →
      l.foldl (fun a x => canonInsert k r x a) acc = acc ++ l := by
  intro l
  induction l with
  | nil => simp
  | cons x xs ih =>
    intro acc h
    have hax : ∀ y ∈ acc, rle k r y x := by
      intro y hy
      exact (List.pairwise_append.mp h).2.2 y hy x (by simp)
    rw [List.foldl_cons, canonInsert_eq_append hax, ih]
    · rw [List.append_assoc]
      rfl
    · rw [List.append_assoc]
      simpa using h

theorem canonicalSort_of_sorted {k : T → K} {r : Bool} {l : List T}
    (h : l.Pairwise (rle k r)) : canonicalSort k r l = l := by
  have := canonFold_of_sorted l [] (by simpa using h)
  simpa [canonicalSort] using this

/-! ## Insertion sort -/

theorem shiftIns_perm (k : T → K) (r : Bool) (x : T) (xkey : K) :
    ∀ l : List T, List.Perm (shiftIns k r x xkey l) (x :: l) := by
  intro l
  induction l with
  | nil => exact List.Perm.refl _
  | cons e rest ih =>
    by_cases h : should_swap (k e) xkey r = true
    · rw [shiftIns, if_pos h]
      exact (ih.cons e).trans (List.Perm.swap x e rest)
    · rw [shiftIns, if_neg h]

theorem mem_shiftIns {k : T → K} {r : Bool} {x z : T} {xkey : K} {l : List T} :
    z ∈ shiftIns k r x xkey l ↔ z = x ∨ z ∈ l := by
  rw [(shiftIns_perm k r x xkey l).mem_iff]
  exact List.mem_cons

theorem shiftIns_keyFilter (k : T → K) (r : Bool) (x : T) (c : K) :
    ∀ l : List T, keyFilter k c (shiftIns k r x (k x) l) =
      if k x = c then x :: keyFilter k c l else keyFilter k c l := by
  intro l
  induction l with
  | nil =>
    by_cases hc : k x = c <;> simp [shiftIns, keyFilter, hc]
  | cons e rest ih =>
    by_cases h : should_swap (k e) (k x) r = true
    · have hne : k e ≠ k x := by
        intro hek
        have : keyle r (k e) (k x) := rle_of_key_eq (k := k) hek
        rw [not_keyle_iff.symm] at h
        exact h this
      rw [shiftIns, if_pos h, keyFilter_cons, ih, keyFilter_cons]
      by_cases hc : k x = c
      · have he : ¬ k e = c := fun hec => hne (hec.trans hc.symm)
        simp [hc, he]
      · simp [hc]
    · rw [shiftIns, if_neg h, keyFilter_cons, keyFilter_cons]

theorem shiftIns_revSorted {k : T → K} {r : Bool} {x : T} :
    ∀ {l : List T}, l.Pairwise (fun a b => rle k r b a) →
      (shiftIns k r x (k x) l).Pairwise (fun a b => rle k r b a) := by
  intro l
  induction l with
  | nil =>
    intro _
    simp [shiftIns]
  | cons e rest ih =>
    intro h
    rw [List.pairwise_cons] at h
    by_cases hsw : should_swap (k e) (k x) r = true
    · have hxe : rle k r x e := by
        rw [← not_keyle_iff] at hsw
        exact rle_of_not_rle hsw
      rw [shiftIns, if_pos hsw, List.pairwise_cons]
      refine ⟨fun z hz => ?_, ih h.2⟩
      rcases mem_shiftIns.mp hz with hze | hz
      · subst hze
        exact hxe
      · exact h.1 z hz
    · have hex : rle k r e x := by
        simpa [rle, keyle] using hsw
      rw [shiftIns, if_neg hsw, List.pairwise_cons]
      refine ⟨fun z hz => ?_, List.pairwise_cons.mpr h⟩
      rcases List.mem_cons.mp hz with hze | hz
      · subst hze
        exact hex
      · exact rle_trans (h.1 z hz) hex

theorem insFold_perm (k : T → K) (r : Bool) :
    ∀ (l acc : List T),
      List.Perm (l.foldl (fun a x => shiftIns k r x (k x) a) acc) (l ++ acc) := by
  intro l
  induction l with
  | nil => exact fun acc => List.Perm.refl _
  | cons x xs ih =>
    intro acc
    refine (ih (shiftIns k r x (k x) acc)).trans ?_
    exact ((shiftIns_perm k r x (k x) acc).append_left xs).trans List.perm_middle

theorem insFold_keyFilter (k : T → K) (r : Bool) (c : K) :
    ∀ (l acc : List T),
      keyFilter k c (l.foldl (fun a x => shiftIns k r x (k x) a) acc) =
        (keyFilter k c l).reverse ++ keyFilter k c acc := by
  intro l
  induction l with
  | nil =>
    intro acc
    simp [keyFilter]
  | cons x xs ih =>
    intro acc
    rw [List.foldl_cons, ih, shiftIns_keyFilter, keyFilter_cons]
    by_cases hc : k x = c
    · rw [if_pos hc, if_pos hc]
      simp [List.append_assoc]
    · rw [if_neg hc, if_neg hc]

theorem insFold_revSorted (k : T → K) (r : Bool) :
    ∀ (l acc : List T), acc.Pairwise (fun a b => rle k r b a) →
      (l.foldl (fun a x => shiftIns k r x (k x) a) acc).Pairwise
        (fun a b => rle k r b a) := by
  intro l
  induction l with
  | nil => exact fun acc h => h
  | cons x xs ih => exact fun acc h => ih _ (shiftIns_revSorted h)

theorem insertion_sort_perm (l : List T) (k : T → K) (r : Bool) :
    List.Perm (insertion_sort l k r) l := by
  refine (List.reverse_perm _).trans ?_
  have := insFold_perm k r l []
  simpa using this

theorem insertion_sort_keyFilter (l : List T) (k : T → K) (r : Bool) (c : K) :
    keyFilter k c (insertion_sort l k r) = keyFilter k c l := by
  unfold insertion_sort keyFilter
  rw [List.filter_reverse]
  have := insFold_keyFilter k r c l []
  unfold keyFilter at this
  simp only [List.filter_nil, List.append_nil] at this
  rw [this, List.reverse_reverse]

theorem insertion_sort_sorted (l : List T) (k : T → K) (r : Bool) :
    (insertion_sort l k r).Pairwise (rle k r) := by
  have h := insFold_revSorted k r l [] List.Pairwise.nil
  exact List.pairwise_reverse.mpr (h.imp fun hab => hab)

theorem insertion_eq_canonical (l : List T) (k : T → K) (r : Bool) :
    insertion_sort l k r = canonicalSort k r l :=
  eq_of_sorted_of_keyFilter_eq (insertion_sort_sorted l k r)
    (canonicalSort_sorted k r l)
    (fun c => (insertion_sort_keyFilter l k r c).trans
      (canonicalSort_keyFilter k r l c).symm)

/-! ## Merge sort -/

theorem not_rle_of_swap {k : T → K} {r : Bool} {a b : T}
    (h : should_swap (k a) (k b) r = true) : ¬ rle k r a b := by
  simp [rle, keyle, h]

theorem rle_of_swap_false {k : T → K} {r : Bool} {a b : T}
    (h : should_swap (k a) (k b) r = false) : rle k r a b := h

theorem mergeLists_perm (k : T → K) (r : Bool) :
    ∀ (L Rl : List T), List.Perm (mergeLists k r L Rl) (L ++ Rl) := by
  intro L
  induction L with
  | nil =>
    intro Rl
    simp [mergeLists]
  | cons x xs ihx =>
    intro Rl
    induction Rl with
    | nil => simp [mergeLists]
    | cons y ys ihy =>
      rw [mergeLists]
      by_cases h : should_swap (k x) (k y) r = true
      · rw [if_pos h]
        exact (ihy.cons y).trans List.perm_middle.symm
      · rw [if_neg h]
        exact (ihx (y :: ys)).cons x

theorem mem_mergeLists {k : T → K} {r : Bool} {L Rl : List T} {z : T} :
    z ∈ mergeLists k r L Rl ↔ z ∈ L ∨ z ∈ Rl := by
  rw [(mergeLists_perm k r L Rl).mem_iff]
  exact List.mem_append

theorem mergeLists_sorted (k : T → K) (r : Bool) :
    ∀ (L Rl : List T), L.Pairwise (rle k r) → Rl.Pairwise (rle k r) →
      (mergeLists k r L Rl).Pairwise (rle k r) := by
  intro L
  induction L with
  | nil =>
    intro Rl _ hR
    simpa [mergeLists] using hR
  | cons x xs ihx =>
    intro Rl
    induction Rl with
    | nil =>
      intro hL _
      simpa [mergeLists] using hL
    | cons y ys ihy =>
      intro hL hR
      rw [mergeLists]
      by_cases h : should_swap (k x) (k y) r = true
      · rw [if_pos h]
        have hyx : rle k r y x := rle_of_not_rle (not_rle_of_swap h)
        rw [List.pairwise_cons] at hR ⊢
        refine ⟨fun z hz => ?_, ihy hL hR.2⟩
        rcases mem_mergeLists.mp hz with hz | hz
        · rcases List.mem_cons.mp hz with hze | hz
          · subst hze
            exact hyx
          · exact rle_trans hyx ((List.pairwise_cons.mp hL).1 z hz)
        · exact hR.1 z hz
      · rw [if_neg h]
        have hxy : rle k r x y :=
          rle_of_swap_false (Bool.not_eq_true _ ▸ h)
        rw [List.pairwise_cons] at hL ⊢
        refine ⟨fun z hz => ?_, ihx (y :: ys) hL.2 hR⟩
        rcases mem_mergeLists.mp hz with hz | hz
        · exact hL.1 z hz
        · rcases List.mem_cons.mp hz with hze | hz
          · subst hze
            exact hxy
          · exact rle_trans hxy ((List.pairwise_cons.mp hR).1 z hz)

theorem mergeLists_keyFilter (k : T → K) (r : Bool) (c : K) :
    ∀ (L Rl : List T), L.Pairwise (rle k r) →
      keyFilter k c (mergeLists k r L Rl) =
        keyFilter k c L ++ keyFilter k c Rl := by
  intro L
  induction L with
  | nil =>
    intro Rl _
    simp [mergeLists, keyFilter]
  | cons x xs ihx =>
    intro Rl
    induction Rl with
    | nil =>
      intro _
      simp [mergeLists, keyFilter]
    | cons y ys ihy =>
      intro hL
      rw [mergeLists]
      by_cases h : should_swap (k x) (k y) r = true
      · rw [if_pos h, keyFilter_cons k c y (mergeLists k r (x :: xs) ys), ihy hL]
        have hnxy : ¬ rle k r x y := not_rle_of_swap h
        by_cases hy : k y = c
        · have hnil : keyFilter k c (x :: xs) = [] := by
            apply keyFilter_eq_nil_of_keys_ne
            intro z hz hzc
            apply hnxy
            have hzy : k z = k y := hzc.trans hy.symm
            rcases List.mem_cons.mp hz with hze | hz
            · subst hze
              exact rle_of_key_eq hzy
            · exact rle_trans ((List.pairwise_cons.mp hL).1 z hz)
                (rle_of_key_eq hzy)
          rw [if_pos hy, hnil, keyFilter_cons k c y ys, if_pos hy]
          simp
        · rw [if_neg hy, keyFilter_cons k c y ys, if_neg hy]
      · rw [if_neg h, keyFilter_cons k c x (mergeLists k r xs (y :: ys)),
          ihx (y :: ys) (List.pairwise_cons.mp hL).2]
        by_cases hx : k x = c
        · rw [if_pos hx, keyFilter_cons k c x xs, if_pos hx]
          rfl
        · rw [if_neg hx, keyFilter_cons k c x xs, if_neg hx]

theorem msort_small (k : T → K) (r : Bool) {l : List T} (h : l.length ≤ 1) :
    msort k r l = l := by
  rw [msort]
  exact dif_pos h

theorem msort_rec (k : T → K) (r : Bool) {l : List T} (h : ¬ l.length ≤ 1) :
    msort k r l = mergeLists k r (msort k r (l.take (l.length / 2)))
      (msort k r (l.drop (l.length / 2))) := by
  rw [msort]
  exact dif_neg h

theorem pairwise_of_length_le_one {k : T → K} {r : Bool} {l : List T}
    (h : l.length ≤ 1) : l.Pairwise (rle k r) := by
  cases l with
  | nil => simp
  | cons x xs =>
    cases xs with
    | nil => simp
    | cons y ys => simp at h

theorem msort_perm_fuel (k : T → K) (r : Bool) :
    ∀ (n : Nat) (l : List T), l.length ≤ n →
      List.Perm (msort k r l) l := by
  intro n
  induction n with
  | zero =>
    intro l hl
    rw [msort_small k r (by omega)]
  | succ n ih =>
    intro l hl
    by_cases h1 : l.length ≤ 1
    · rw [msort_small k r h1]
    · rw [msort_rec k r h1]
      have htk : (l.take (l.length / 2)).length ≤ n := by
        rw [List.length_take]
        omega
      have hdp : (l.drop (l.length / 2)).length ≤ n := by
        rw [List.length_drop]
        omega
      refine (mergeLists_perm k r _ _).trans ?_
      have := (ih _ htk).append (ih _ hdp)
      rw [List.take_append_drop] at this
      exact this

theorem msort_sorted_fuel (k : T → K) (r : Bool) :
    ∀ (n : Nat) (l : List T), l.length ≤ n →
      (msort k r l).Pairwise (rle k r) := by
  intro n
  induction n with
  | zero =>
    intro l hl
    rw [msort_small k r (by omega)]
    exact pairwise_of_length_le_one (by omega)
  | succ n ih =>
    intro l hl
    by_cases h1 : l.length ≤ 1
    · rw [msort_small k r h1]
      exact pairwise_of_length_le_one h1
    · rw [msort_rec k r h1]
      have htk : (l.take (l.length / 2)).length ≤ n := by
        rw [List.length_take]
        omega
      have hdp : (l.drop (l.length / 2)).length ≤ n := by
        rw [List.length_drop]
        omega
      exact mergeLists_sorted k r _ _ (ih _ htk) (ih _ hdp)

theorem msort_keyFilter_fuel (k : T → K) (r : Bool) (c : K) :
    ∀ (n : Nat) (l : List T), l.length ≤ n →
      keyFilter k c (msort k r l) = keyFilter k c l := by
  intro n
  induction n with
  | zero =>
    intro l hl
    rw [msort_small k r (by omega)]
  | succ n ih =>
    intro l hl
    by_cases h1 : l.length ≤ 1
    · rw [msort_small k r h1]
    · rw [msort_rec k r h1]
      have htk : (l.take (l.length / 2)).length ≤ n := by
        rw [List.length_take]
        omega
      have hdp : (l.drop (l.length / 2)).length ≤ n := by
        rw [List.length_drop]
        omega
      rw [mergeLists_keyFilter k r c _ _ (msort_sorted_fuel k r _ _ (le_refl _)),
        ih _ htk, ih _ hdp, ← keyFilter_append, List.take_append_drop]

theorem merge_sort_perm (l : List T) (k : T → K) (r : Bool) :
    List.Perm (merge_sort l k r) l :=
  msort_perm_fuel k r l.length l (le_refl _)

theorem merge_sort_sorted (l : List T) (k : T → K) (r : Bool) :
    (merge_sort l k r).Pairwise (rle k r) :=
  msort_sorted_fuel k r l.length l (le_refl _)

theorem merge_sort_keyFilter (l : List T) (k : T → K) (r : Bool) (c : K) :
    keyFilter k c (merge_sort l k r) = keyFilter k c l :=
  msort_keyFilter_fuel k r c l.length l (le_refl _)

theorem merge_eq_canonical (l : List T) (k : T → K) (r : Bool) :
    merge_sort l k r = canonicalSort k r l :=
  eq_of_sorted_of_keyFilter_eq (merge_sort_sorted l k r)
    (canonicalSort_sorted k r l)
    (fun c => (merge_sort_keyFilter l k r c).trans
      (canonicalSort_keyFilter k r l c).symm)

/-! ## Quick sort -/

theorem should_swap_self (a : K) (r : Bool) : should_swap a a r = false :=
  keyle_refl r a

theorem qsort_small (k : T → K) (r : Bool) {l : List T} (h : l.length ≤ 1) :
    qsort k r l = l := by
  rw [qsort]
  exact dif_pos h

theorem qsort_rec (k : T → K) (r : Bool) {l : List T} (h : ¬ l.length ≤ 1)
    (pk : K)
    (hpk : pk = k (l.get ⟨l.length / 2, Nat.div_lt_self (by omega) (by omega)⟩)) :
    qsort k r l =
      qsort k r (qsLeft k r pk l) ++ qsMiddle k pk l ++
        qsort k r (qsRight k r pk l) := by
  subst hpk
  rw [qsort]
  exact dif_neg h

theorem mem_qsLeft {k : T → K} {r : Bool} {pk : K} {l : List T} {z : T} :
    z ∈ qsLeft k r pk l ↔
      z ∈ l ∧ k z ≠ pk ∧ should_swap (k z) pk r = false := by
  simp [qsLeft, List.mem_filter, and_assoc]

theorem mem_qsMiddle {k : T → K} {pk : K} {l : List T} {z : T} :
    z ∈ qsMiddle k pk l ↔ z ∈ l ∧ k z = pk := by
  simp [qsMiddle, List.mem_filter]

theorem mem_qsRight {k : T → K} {r : Bool} {pk : K} {l : List T} {z : T} :
    z ∈ qsRight k r pk l ↔
      z ∈ l ∧ k z ≠ pk ∧ should_swap (k z) pk r = true := by
  simp [qsRight, List.mem_filter, and_assoc]

theorem partition_perm (k : T → K) (r : Bool) (pk : K) :
    ∀ l : List T,
      List.Perm ((qsLeft k r pk l ++ qsMiddle k pk l) ++ qsRight k r pk l) l := by
  intro l
  induction l with
  | nil => simp [qsLeft, qsMiddle, qsRight]
  | cons x t ih =>
    by_cases hm : k x = pk
    · have e1 : qsLeft k r pk (x :: t) = qsLeft k r pk t := by
        simp [qsLeft, List.filter_cons, hm]
      have e2 : qsMiddle k pk (x :: t) = x :: qsMiddle k pk t := by
        simp [qsMiddle, List.filter_cons, hm]
      have e3 : qsRight k r pk (x :: t) = qsRight k r pk t := by
        simp [qsRight, List.filter_cons, hm]
      rw [e1, e2, e3]
      exact ((List.perm_middle).append_right _).trans (ih.cons x)
    · by_cases hsw : should_swap (k x) pk r = true
      · have e1 : qsLeft k r pk (x :: t) = qsLeft k r pk t := by
          simp [qsLeft, List.filter_cons, hm, hsw]
        have e2 : qsMiddle k pk (x :: t) = qsMiddle k pk t := by
          simp [qsMiddle, List.filter_cons, hm]
        have e3 : qsRight k r pk (x :: t) = x :: qsRight k r pk t := by
          simp [qsRight, List.filter_cons, hm, hsw]
        rw [e1, e2, e3]
        exact (List.perm_middle).trans (ih.cons x)
      · have e1 : qsLeft k r pk (x :: t) = x :: qsLeft k r pk t := by
          simp [qsLeft, List.filter_cons, hm, hsw]
        have e2 : qsMiddle k pk (x :: t) = qsMiddle k pk t := by
          simp [qsMiddle, List.filter_cons, hm]
        have e3 : qsRight k r pk (x :: t) = qsRight k r pk t := by
          simp [qsRight, List.filter_cons, hm, hsw]
        rw [e1, e2, e3]
        exact ih.cons x

theorem pairwise_of_const_key {k : T → K} {r : Bool} {pk : K} :
    ∀ {l : List T}, (∀ x ∈ l, k x = pk) → l.Pairwise (rle k r) := by
  intro l
  induction l with
  | nil => exact fun _ => List.Pairwise.nil
  | cons x t ih =>
    intro h
    rw [List.pairwise_cons]
    refine ⟨fun z hz => ?_, ih fun z hz => h z (by simp [hz])⟩
    exact rle_of_key_eq ((h x (by simp)).trans (h z (by simp [hz])).symm)

theorem keyFilter_filter (k : T → K) (c : K) {p : T → Bool}
    (hp : ∀ x : T, k x = c → p x = true) :
    ∀ l : List T, keyFilter k c (l.filter p) = keyFilter k c l := by
  intro l
  unfold keyFilter
  rw [List.filter_filter]
  apply List.filter_congr
  intro x _
  by_cases hx : k x = c
  · simp [hx, hp x hx]
  · simp [hx]

theorem partition_keyFilter (k : T → K) (r : Bool) (pk c : K) (l : List T) :
    (keyFilter k c (qsLeft k r pk l) ++ keyFilter k c (qsMiddle k pk l)) ++
      keyFilter k c (qsRight k r pk l) = keyFilter k c l := by
  by_cases hc : c = pk
  · subst hc
    have e1 : keyFilter k c (qsLeft k r c l) = [] :=
      keyFilter_eq_nil_of_keys_ne fun z hz => (mem_qsLeft.mp hz).2.1
    have e3 : keyFilter k c (qsRight k r c l) = [] :=
      keyFilter_eq_nil_of_keys_ne fun z hz => (mem_qsRight.mp hz).2.1
    have e2 : keyFilter k c (qsMiddle k c l) = keyFilter k c l := by
      unfold qsMiddle
      exact keyFilter_filter k c (fun x hx => by simp [hx]) l
    rw [e1, e2, e3]
    simp
  · by_cases hsw : should_swap c pk r = true
    · have e1 : keyFilter k c (qsLeft k r pk l) = [] := by
        apply keyFilter_eq_nil_of_keys_ne
        intro z hz hzc
        have := (mem_qsLeft.mp hz).2.2
        rw [hzc, hsw] at this
        cases this
      have e2 : keyFilter k c (qsMiddle k pk l) = [] := by
        apply keyFilter_eq_nil_of_keys_ne
        intro z hz hzc
        exact hc (hzc.symm.trans (mem_qsMiddle.mp hz).2)
      have e3 : keyFilter k c (qsRight k r pk l) = keyFilter k c l := by
        unfold qsRight
        exact keyFilter_filter k c (fun x hx => by simp [hx, hc, hsw]) l
      rw [e1, e2, e3]
      simp
    · have hns : should_swap c pk r = false := by
        cases hcc : should_swap c pk r
        · rfl
        · exact absurd hcc hsw
      have e2 : keyFilter k c (qsMiddle k pk l) = [] := by
        apply keyFilter_eq_nil_of_keys_ne
        intro z hz hzc
        exact hc (hzc.symm.trans (mem_qsMiddle.mp hz).2)
      have e3 : keyFilter k c (qsRight k r pk l) = [] := by
        apply keyFilter_eq_nil_of_keys_ne
        intro z hz hzc
        have := (mem_qsRight.mp hz).2.2
        rw [hzc, hns] at this
        cases this
      have e1 : keyFilter k c (qsLeft k r pk l) = keyFilter k c l := by
        unfold qsLeft
        exact keyFilter_filter k c (fun x hx => by simp [hx, hc, hns]) l
      rw [e1, e2, e3]
      simp

theorem keyle_pk_of_mem_qsLeft {k : T → K} {r : Bool} {pk : K} {l : List T}
    {z : T} (h : z ∈ qsLeft k r pk l) : keyle r (k z) pk :=
  (mem_qsLeft.mp h).2.2

theorem keyle_pk_of_mem_qsRight {k : T → K} {r : Bool} {pk : K} {l : List T}
    {z : T} (h : z ∈ qsRight k r pk l) : keyle r pk (k z) := by
  have hsw := (mem_qsRight.mp h).2.2
  have : ¬ keyle r (k z) pk := not_keyle_iff.mpr hsw
  exact (keyle_total r (k z) pk).resolve_left this

theorem qsort_perm_fuel (k : T → K) (r : Bool) :
    ∀ (n : Nat) (l : List T), l.length ≤ n → List.Perm (qsort k r l) l := by
  intro n
  induction n with
  | zero =>
    intro l hl
    rw [qsort_small k r (by omega)]
  | succ n ih =>
    intro l hl
    by_cases h1 : l.length ≤ 1
    · rw [qsort_small k r h1]
    · have hp : l.length / 2 < l.length := Nat.div_lt_self (by omega) (by omega)
      rw [qsort_rec k r h1
        (k (l.get ⟨l.length / 2, Nat.div_lt_self (by omega) (by omega)⟩)) rfl]
      have hml : (qsLeft k r (k (l.get ⟨l.length / 2, hp⟩)) l).length ≤ n := by
        have := qsLeft_length_lt k r l _ (List.get_mem l (l.length / 2) hp)
        omega
      have hmr : (qsRight k r (k (l.get ⟨l.length / 2, hp⟩)) l).length ≤ n := by
        have := qsRight_length_lt k r l _ (List.get_mem l (l.length / 2) hp)
        omega
      exact (((ih _ hml).append_right _).append (ih _ hmr)).trans
        (partition_perm k r _ l)

theorem qsort_sorted_fuel (k : T → K) (r : Bool) :
    ∀ (n : Nat) (l : List T), l.length ≤ n →
      (qsort k r l).Pairwise (rle k r) := by
  intro n
  induction n with
  | zero =>
    intro l hl
    rw [qsort_small k r (by omega)]
    exact pairwise_of_length_le_one (by omega)
  | succ n ih =>
    intro l hl
    by_cases h1 : l.length ≤ 1
    · rw [qsort_small k r h1]
      exact pairwise_of_length_le_one h1
    · have hp : l.length / 2 < l.length := Nat.div_lt_self (by omega) (by omega)
      rw [qsort_rec k r h1
        (k (l.get ⟨l.length / 2, Nat.div_lt_self (by omega) (by omega)⟩)) rfl]
      have hml : (qsLeft k r (k (l.get ⟨l.length / 2, hp⟩)) l).length ≤ n := by
        have := qsLeft_length_lt k r l _ (List.get_mem l (l.length / 2) hp)
        omega
      have hmr : (qsRight k r (k (l.get ⟨l.length / 2, hp⟩)) l).length ≤ n := by
        have := qsRight_length_lt k r l _ (List.get_mem l (l.length / 2) hp)
        omega
      have hL : ∀ z : T,
          z ∈ qsort k r (qsLeft k r (k (l.get ⟨l.length / 2, hp⟩)) l) →
            z ∈ qsLeft k r (k (l.get ⟨l.length / 2, hp⟩)) l :=
        fun z hz => (qsort_perm_fuel k r _ _ (le_refl _)).mem_iff.mp hz
      have hR : ∀ z : T,
          z ∈ qsort k r (qsRight k r (k (l.get ⟨l.length / 2, hp⟩)) l) →
            z ∈ qsRight k r (k (l.get ⟨l.length / 2, hp⟩)) l :=
        fun z hz => (qsort_perm_fuel k r _ _ (le_refl _)).mem_iff.mp hz
      refine List.pairwise_append.mpr
        ⟨List.pairwise_append.mpr ⟨ih _ hml, ?_, ?_⟩, ih _ hmr, ?_⟩
      · exact pairwise_of_const_key fun x hx => (mem_qsMiddle.mp hx).2
      · intro a ha b hb
        have hka : keyle r (k a) _ := keyle_pk_of_mem_qsLeft (hL a ha)
        have hkb := (mem_qsMiddle.mp hb).2
        unfold rle
        rw [hkb]
        exact hka
      · intro a ha b hb
        have hkb : keyle r _ (k b) := keyle_pk_of_mem_qsRight (hR b hb)
        rcases List.mem_append.mp ha with ha | ha
        · exact keyle_trans (keyle_pk_of_mem_qsLeft (hL a ha)) hkb
        · have hka := (mem_qsMiddle.mp ha).2
          unfold rle
          rw [hka]
          exact hkb

theorem qsort_keyFilter_fuel (k : T → K) (r : Bool) (c : K) :
    ∀ (n : Nat) (l : List T), l.length ≤ n →
      keyFilter k c (qsort k r l) = keyFilter k c l := by
  intro n
  induction n with
  | zero =>
    intro l hl
    rw [qsort_small k r (by omega)]
  | succ n ih =>
    intro l hl
    by_cases h1 : l.length ≤ 1
    · rw [qsort_small k r h1]
    · have hp : l.length / 2 < l.length := Nat.div_lt_self (by omega) (by omega)
      rw [qsort_rec k r h1
        (k (l.get ⟨l.length / 2, Nat.div_lt_self (by omega) (by omega)⟩)) rfl]
      have hml : (qsLeft k r (k (l.get ⟨l.length / 2, hp⟩)) l).length ≤ n := by
        have := qsLeft_length_lt k r l _ (List.get_mem l (l.length / 2) hp)
        omega
      have hmr : (qsRight k r (k (l.get ⟨l.length / 2, hp⟩)) l).length ≤ n := by
        have := qsRight_length_lt k r l _ (List.get_mem l (l.length / 2) hp)
        omega
      rw [keyFilter_append, keyFilter_append, ih _ hml, ih _ hmr,
        partition_keyFilter]

theorem quick_sort_perm (l : List T) (k : T → K) (r : Bool) :
    List.Perm (quick_sort l k r) l :=
  qsort_perm_fuel k r l.length l (le_refl _)

theorem quick_sort_sorted (l : List T) (k : T → K) (r : Bool) :
    (quick_sort l k r).Pairwise (rle k r) :=
  qsort_sorted_fuel k r l.length l (le_refl _)

theorem quick_sort_keyFilter (l : List T) (k : T → K) (r : Bool) (c : K) :
    keyFilter k c (quick_sort l k r) = keyFilter k c l :=
  qsort_keyFilter_fuel k r c l.length l (le_refl _)

theorem quick_eq_canonical (l : List T) (k : T → K) (r : Bool) :
    quick_sort l k r = canonicalSort k r l :=
  eq_of_sorted_of_keyFilter_eq (quick_sort_sorted l k r)
    (canonicalSort_sorted k r l)
    (fun c => (quick_sort_keyFilter l k r c).trans
      (canonicalSort_keyFilter k r l c).symm)

/-! ## Bubble sort -/

theorem keyle_of_not_keyle_keys {k : T → K} {r : Bool} {a b : T}
    (h : should_swap (k a) (k b) r = true) :
    keyle r (k b) (k a) ∧ k a ≠ k b :=
  keyle_of_not_keyle (not_keyle_iff.mpr h)

theorem bpass_perm (k : T → K) (r : Bool) :
    ∀ (e : Nat) (l : List T), List.Perm (bpass k r e l).1 l := by
  intro e
  induction e with
  | zero =>
    intro l
    simp [bpass]
  | succ e ihe =>
    intro l
    match l with
    | [] => simp [bpass]
    | [x] => simp [bpass]
    | x :: y :: rest =>
      by_cases h : should_swap (k x) (k y) r = true
      · rw [bpass, if_pos h]
        exact ((ihe (x :: rest)).cons y).trans (List.Perm.swap x y rest)
      · rw [bpass, if_neg h]
        exact (ihe (y :: rest)).cons x

theorem bpass_keyFilter (k : T → K) (r : Bool) (c : K) :
    ∀ (e : Nat) (l : List T),
      keyFilter k c (bpass k r e l).1 = keyFilter k c l := by
  intro e
  induction e with
  | zero =>
    intro l
    simp [bpass]
  | succ e ihe =>
    intro l
    match l with
    | [] => simp [bpass]
    | [x] => simp [bpass]
    | x :: y :: rest =>
      by_cases h : should_swap (k x) (k y) r = true
      · have hxy : k x ≠ k y := (keyle_of_not_keyle_keys h).2
        rw [bpass, if_pos h, keyFilter_cons k c y _, ihe,
          keyFilter_cons k c x rest, keyFilter_cons k c x (y :: rest),
          keyFilter_cons k c y rest]
        by_cases h1 : k x = c <;> by_cases h2 : k y = c
        · exact absurd (h1.trans h2.symm) hxy
        · simp [h1, h2]
        · simp [h1, h2]
        · simp [h1, h2]
      · rw [bpass, if_neg h]
        rw [keyFilter_cons k c x _, ihe, keyFilter_cons k c x (y :: rest)]

theorem bpass_not_swapped (k : T → K) (r : Bool) :
    ∀ (e : Nat) (l : List T), (bpass k r e l).2 = false →
      (bpass k r e l).1 = l := by
  intro e
  induction e with
  | zero =>
    intro l _
    simp [bpass]
  | succ e ihe =>
    intro l
    match l with
    | [] => simp [bpass]
    | [x] => simp [bpass]
    | x :: y :: rest =>
      by_cases h : should_swap (k x) (k y) r = true
      · rw [bpass, if_pos h]
        intro hfl
        simp at hfl
      · rw [bpass, if_neg h]
        intro hfl
        dsimp only at hfl ⊢
        rw [ihe (y :: rest) hfl]

theorem bpass_chain (k : T → K) (r : Bool) :
    ∀ (e : Nat) (F : List T), F.length = e + 1 →
      (bpass k r e F).2 = false → List.Chain' (rle k r) F := by
  intro e
  induction e with
  | zero =>
    intro F hF _
    match F, hF with
    | [x], _ => simp
  | succ e ihe =>
    intro F hF
    match F with
    | x :: y :: rest =>
      by_cases h : should_swap (k x) (k y) r = true
      · rw [bpass, if_pos h]
        intro hfl
        simp at hfl
      · rw [bpass, if_neg h]
        intro hfl
        rw [List.chain'_cons]
        refine ⟨rle_of_swap_false (Bool.not_eq_true _ ▸ h), ?_⟩
        exact ihe (y :: rest) (by simpa using hF) hfl

theorem bpass_split (k : T → K) (r : Bool) :
    ∀ (e : Nat) (F B : List T), F.length = e + 1 →
      bpass k r e (F ++ B) = ((bpass k r e F).1 ++ B, (bpass k r e F).2) := by
  intro e
  induction e with
  | zero =>
    intro F B _
    simp [bpass]
  | succ e ihe =>
    intro F B hF
    match F with
    | x :: y :: rest =>
      rw [List.cons_append, List.cons_append]
      by_cases h : should_swap (k x) (k y) r = true
      · rw [bpass, if_pos h, bpass, if_pos h]
        rw [← List.cons_append, ihe (x :: rest) B (by simpa using hF)]
        rfl
      · rw [bpass, if_neg h, bpass, if_neg h]
        rw [← List.cons_append, ihe (y :: rest) B (by simpa using hF)]
        rfl

theorem bpass_split_fst (k : T → K) (r : Bool) (e : Nat) (F B : List T)
    (hF : F.length = e + 1) :
    (bpass k r e (F ++ B)).1 = (bpass k r e F).1 ++ B := by
  rw [bpass_split k r e F B hF]

theorem bpass_split_snd (k : T → K) (r : Bool) (e : Nat) (F B : List T)
    (hF : F.length = e + 1) :
    (bpass k r e (F ++ B)).2 = (bpass k r e F).2 := by
  rw [bpass_split k r e F B hF]

theorem bpass_last_max (k : T → K) (r : Bool) :
    ∀ (e : Nat) (F : List T), F.length = e + 1 →
      ∃ G m, (bpass k r e F).1 = G ++ [m] ∧ ∀ x ∈ F, rle k r x m := by
  intro e
  induction e with
  | zero =>
    intro F hF
    match F, hF with
    | [x], _ =>
      refine ⟨[], x, by simp [bpass], ?_⟩
      intro z hz
      rw [List.mem_singleton.mp hz]
      exact rle_refl k r x
  | succ e ihe =>
    intro F hF
    match F with
    | x :: y :: rest =>
      by_cases h : should_swap (k x) (k y) r = true
      · obtain ⟨G, m, hGm, hmax⟩ := ihe (x :: rest) (by simpa using hF)
        have hyx : rle k r y x := rle_of_not_rle (not_rle_of_swap h)
        refine ⟨y :: G, m, ?_, ?_⟩
        · rw [bpass, if_pos h, hGm]
          rfl
        · intro z hz
          rcases List.mem_cons.mp hz with hze | hz
          · subst hze
            exact hmax z (by simp)
          · rcases List.mem_cons.mp hz with hze | hz
            · subst hze
              exact rle_trans hyx (hmax x (by simp))
            · exact hmax z (by simp [hz])
      · obtain ⟨G, m, hGm, hmax⟩ := ihe (y :: rest) (by simpa using hF)
        have hxy : rle k r x y :=
          rle_of_swap_false (Bool.not_eq_true _ ▸ h)
        refine ⟨x :: G, m, ?_, ?_⟩
        · rw [bpass, if_neg h]
          simp only [hGm]
          rfl
        · intro z hz
          rcases List.mem_cons.mp hz with hze | hz
          · subst hze
            exact rle_trans hxy (hmax y (by simp))
          · exact hmax z hz

theorem bloop_perm (k : T → K) (r : Bool) :
    ∀ (e : Nat) (l : List T), List.Perm (bloop k r e l) l := by
  intro e
  induction e with
  | zero =>
    intro l
    rw [bloop]
  | succ e ihe =>
    intro l
    rw [bloop]
    by_cases hfl : (bpass k r (e + 1) l).2 = true
    · rw [if_pos hfl]
      exact (ihe _).trans (bpass_perm k r (e + 1) l)
    · rw [if_neg hfl]
      exact bpass_perm k r (e + 1) l

theorem bloop_keyFilter (k : T → K) (r : Bool) (c : K) :
    ∀ (e : Nat) (l : List T),
      keyFilter k c (bloop k r e l) = keyFilter k c l := by
  intro e
  induction e with
  | zero =>
    intro l
    rw [bloop]
  | succ e ihe =>
    intro l
    rw [bloop]
    by_cases hfl : (bpass k r (e + 1) l).2 = true
    · rw [if_pos hfl, ihe, bpass_keyFilter]
    · rw [if_neg hfl, bpass_keyFilter]

theorem bloop_sorted (k : T → K) (r : Bool) :
    ∀ (e : Nat) (F B : List T), F.length = e + 1 → B.Pairwise (rle k r) →
      (∀ x ∈ F, ∀ y ∈ B, rle k r x y) →
      (bloop k r e (F ++ B)).Pairwise (rle k r) := by
  intro e
  induction e with
  | zero =>
    intro F B hF hB hFB
    match F, hF with
    | [f], _ =>
      rw [bloop]
      exact List.pairwise_append.mpr ⟨by simp, hB, hFB⟩
  | succ e ihe =>
    intro F B hF hB hFB
    rw [bloop]
    rw [bpass_split_fst k r (e + 1) F B hF, bpass_split_snd k r (e + 1) F B hF]
    by_cases hfl : (bpass k r (e + 1) F).2 = true
    · rw [if_pos hfl]
      obtain ⟨G, m, hGm, hmax⟩ := bpass_last_max k r (e + 1) F hF
      have hlen : (bpass k r (e + 1) F).1.length = F.length :=
        (bpass_perm k r (e + 1) F).length_eq
      have hG : G.length = e + 1 := by
        rw [hGm] at hlen
        simp only [List.length_append, List.length_cons, List.length_nil] at hlen
        omega
      have hmemF : ∀ z ∈ (bpass k r (e + 1) F).1, z ∈ F :=
        fun z hz => (bpass_perm k r (e + 1) F).mem_iff.mp hz
      have hmF : m ∈ F := hmemF m (by rw [hGm]; simp)
      have hGF : ∀ z ∈ G, z ∈ F := fun z hz => hmemF z (by rw [hGm]; simp [hz])
      rw [hGm, List.append_assoc]
      have hmB : [m] ++ B = m :: B := rfl
      rw [hmB]
      apply ihe G (m :: B) hG
      · rw [List.pairwise_cons]
        exact ⟨fun y hy => hFB m hmF y hy, hB⟩
      · intro x hx y hy
        rcases List.mem_cons.mp hy with hye | hy
        · subst hye
          exact hmax x (hGF x hx)
        · exact hFB x (hGF x hx) y hy
    · rw [if_neg hfl]
      have hfl' : (bpass k r (e + 1) F).2 = false := by
        cases hc : (bpass k r (e + 1) F).2
        · rfl
        · exact absurd hc hfl
      rw [bpass_not_swapped k r (e + 1) F hfl']
      have hpF : F.Pairwise (rle k r) :=
        List.chain'_iff_pairwise.mp (bpass_chain k r (e + 1) F hF hfl')
      exact List.pairwise_append.mpr ⟨hpF, hB, hFB⟩

theorem bubble_sort_perm (l : List T) (k : T → K) (r : Bool) :
    List.Perm (bubble_sort l k r) l :=
  bloop_perm k r (l.length - 1) l

theorem bubble_sort_keyFilter (l : List T) (k : T → K) (r : Bool) (c : K) :
    keyFilter k c (bubble_sort l k r) = keyFilter k c l :=
  bloop_keyFilter k r c (l.length - 1) l

theorem bubble_sort_sorted (l : List T) (k : T → K) (r : Bool) :
    (bubble_sort l k r).Pairwise (rle k r) := by
  cases l with
  | nil => simp [bubble_sort, bloop]
  | cons x t =>
    have := bloop_sorted k r t.length (x :: t) [] (by simp) (by simp) (by simp)
    simpa [bubble_sort] using this

theorem bubble_eq_canonical (l : List T) (k : T → K) (r : Bool) :
    bubble_sort l k r = canonicalSort k r l :=
  eq_of_sorted_of_keyFilter_eq (bubble_sort_sorted l k r)
    (canonicalSort_sorted k r l)
    (fun c => (bubble_sort_keyFilter l k r c).trans
      (canonicalSort_keyFilter k r l c).symm)

/-! ## Selection sort -/

theorem best_pair_spec (k : T → K) (r : Bool) (d : T) :
    ∀ (l : List T) (best : T) (bidx pos : Nat),
      best_pair k r best bidx pos l = (bidx, best) ∨
        ∃ j, j < l.length ∧
          best_pair k r best bidx pos l = (pos + j, l.getD j d) := by
  intro l
  induction l with
  | nil => exact fun best bidx pos => Or.inl rfl
  | cons y ys ih =>
    intro best bidx pos
    by_cases h : should_swap (k best) (k y) r = true
    · rw [best_pair, if_pos h]
      rcases ih y pos (pos + 1) with h0 | ⟨j, hj, heq⟩
      · right
        refine ⟨0, by simp, ?_⟩
        rw [h0]
        simp
      · right
        refine ⟨j + 1, by simpa using hj, ?_⟩
        rw [heq, List.getD_cons_succ]
        congr 1
        omega
    · rw [best_pair, if_neg h]
      rcases ih best bidx (pos + 1) with h0 | ⟨j, hj, heq⟩
      · exact Or.inl h0
      · right
        refine ⟨j + 1, by simpa using hj, ?_⟩
        rw [heq, List.getD_cons_succ]
        congr 1
        omega

theorem best_pair_min (k : T → K) (r : Bool) :
    ∀ (l : List T) (best : T) (bidx pos : Nat),
      rle k r (best_pair k r best bidx pos l).2 best ∧
        ∀ y ∈ l, rle k r (best_pair k r best bidx pos l).2 y := by
  intro l
  induction l with
  | nil =>
    intro best bidx pos
    exact ⟨rle_refl k r best, by simp⟩
  | cons y ys ih =>
    intro best bidx pos
    by_cases h : should_swap (k best) (k y) r = true
    · rw [best_pair, if_pos h]
      have hyb : rle k r y best := rle_of_not_rle (not_rle_of_swap h)
      obtain ⟨hm_y, hall⟩ := ih y pos (pos + 1)
      refine ⟨rle_trans hm_y hyb, fun z hz => ?_⟩
      rcases List.mem_cons.mp hz with hze | hz
      · subst hze
        exact hm_y
      · exact hall z hz
    · rw [best_pair, if_neg h]
      have hby : rle k r best y :=
        rle_of_swap_false (Bool.not_eq_true _ ▸ h)
      obtain ⟨hm_b, hall⟩ := ih best bidx (pos + 1)
      refine ⟨hm_b, fun z hz => ?_⟩
      rcases List.mem_cons.mp hz with hze | hz
      · subst hze
        exact rle_trans hm_b hby
      · exact hall z hz

theorem best_pair_of_min (k : T → K) (r : Bool) :
    ∀ (l : List T) (best : T) (bidx pos : Nat), (∀ y ∈ l, rle k r best y) →
      best_pair k r best bidx pos l = (bidx, best) := by
  intro l
  induction l with
  | nil => exact fun best bidx pos _ => rfl
  | cons y ys ih =>
    intro best bidx pos hmin
    have hby : should_swap (k best) (k y) r = false := hmin y (by simp)
    rw [best_pair, if_neg (by simp [hby])]
    exact ih best bidx (pos + 1) fun z hz => hmin z (by simp [hz])

theorem cons_set_perm (d : T) :
    ∀ (j : Nat) (t : List T) (x : T), j < t.length →
      List.Perm (x :: t) (t.getD j d :: t.set j x) := by
  intro j
  induction j with
  | zero =>
    intro t x ht
    match t with
    | y :: ys => exact List.Perm.swap y x ys
  | succ j ihj =>
    intro t x ht
    match t with
    | y :: ys =>
      have hj : j < ys.length := by simpa using ht
      rw [List.getD_cons_succ, List.set_cons_succ]
      exact ((List.Perm.swap y x ys).trans ((ihj ys x hj).cons y)).trans
        (List.Perm.swap (ys.getD j d) y (ys.set j x))

theorem selGo_perm (k : T → K) (r : Bool) :
    ∀ (n : Nat) (l : List T), l.length = n → List.Perm (selGo k r n l) l := by
  intro n
  induction n with
  | zero =>
    intro l _
    rw [selGo]
  | succ n ih =>
    intro l hlen
    match l with
    | x :: rest =>
      rw [selGo]
      have hrl : rest.length = n := by simpa using hlen
      by_cases hz : (best_pair k r x 0 1 rest).1 = 0
      · rw [if_pos hz]
        exact (ih rest hrl).cons x
      · rw [if_neg hz]
        rcases best_pair_spec k r x rest x 0 1 with h0 | ⟨j, hj, hq⟩
        · rw [h0] at hz
          simp at hz
        · have hsub : (best_pair k r x 0 1 rest).1 - 1 = j := by
            rw [hq]
            omega
          rw [hsub]
          have hset : (rest.set j x).length = n := by
            rw [List.length_set]
            exact hrl
          exact ((ih _ hset).cons _).trans (cons_set_perm x j rest x (hrl ▸ hj)).symm

theorem selGo_sorted (k : T → K) (r : Bool) :
    ∀ (n : Nat) (l : List T), l.length = n →
      (selGo k r n l).Pairwise (rle k r) := by
  intro n
  induction n with
  | zero =>
    intro l hl
    rw [selGo]
    match l, hl with
    | [], _ => simp
  | succ n ih =>
    intro l hlen
    match l with
    | x :: rest =>
      rw [selGo]
      have hrl : rest.length = n := by simpa using hlen
      obtain ⟨hm_x, hm_all⟩ := best_pair_min k r rest x 0 1
      by_cases hz : (best_pair k r x 0 1 rest).1 = 0
      · rw [if_pos hz]
        have hmx : (best_pair k r x 0 1 rest).2 = x := by
          rcases best_pair_spec k r x rest x 0 1 with h0 | ⟨j, hj, hq⟩
          · rw [h0]
          · rw [hq] at hz
            simp at hz
        rw [hmx] at hm_all
        rw [List.pairwise_cons]
        refine ⟨fun z hz2 => ?_, ih rest hrl⟩
        exact hm_all z ((selGo_perm k r n rest hrl).mem_iff.mp hz2)
      · rw [if_neg hz]
        rcases best_pair_spec k r x rest x 0 1 with h0 | ⟨j, hj, hq⟩
        · rw [h0] at hz
          simp at hz
        · have hsub : (best_pair k r x 0 1 rest).1 - 1 = j := by
            rw [hq]
            omega
          have hm2 : (best_pair k r x 0 1 rest).2 = rest.getD j x := by
            rw [hq]
          rw [hsub]
          have hset : (rest.set j x).length = n := by
            rw [List.length_set]
            exact hrl
          rw [List.pairwise_cons]
          refine ⟨fun z hz2 => ?_, ih _ hset⟩
          have hzs : z ∈ rest.set j x :=
            (selGo_perm k r n _ hset).mem_iff.mp hz2
          rw [← hm2]
          rcases List.mem_or_eq_of_mem_set hzs with hzr | hze
          · exact hm_all z hzr
          · subst hze
            exact hm_x

theorem selGo_of_sorted (k : T → K) (r : Bool) :
    ∀ (n : Nat) (l : List T), l.length = n → l.Pairwise (rle k r) →
      selGo k r n l = l := by
  intro n
  induction n with
  | zero =>
    intro l _ _
    rw [selGo]
  | succ n ih =>
    intro l hlen hsort
    match l with
    | x :: rest =>
      rw [selGo]
      have hrl : rest.length = n := by simpa using hlen
      rw [List.pairwise_cons] at hsort
      have hbp : best_pair k r x 0 1 rest = (0, x) :=
        best_pair_of_min k r rest x 0 1 hsort.1
      rw [hbp]
      simp [ih rest hrl hsort.2]

theorem selection_sort_perm (l : List T) (k : T → K) (r : Bool) :
    List.Perm (selection_sort l k r) l :=
  selGo_perm k r l.length l rfl

theorem selection_sort_sorted (l : List T) (k : T → K) (r : Bool) :
    (selection_sort l k r).Pairwise (rle k r) :=
  selGo_sorted k r l.length l rfl

theorem selection_sort_of_sorted {l : List T} {k : T → K} {r : Bool}
    (h : l.Pairwise (rle k r)) : selection_sort l k r = l :=
  selGo_of_sorted k r l.length l rfl h

/-! ## Claim theorems -/

/-- C1, counterexample: the claim says every one of the five algorithms
returns the canonical stable sort, but `selection_sort` on
`[(2, 0), (2, 1), (1, 2)]` with key = first component returns
`[(1, 2), (2, 1), (2, 0)]`, while the canonical stable sort is
`[(1, 2), (2, 0), (2, 1)]`: the swap at the first position reorders the two
equal-key elements. -/
theorem c1_counterexample :
    selection_sort [(2, 0), (2, 1), (1, 2)] (fun p : Nat × Nat => p.1) false ≠
      canonicalSort (fun p : Nat × Nat => p.1) false [(2, 0), (2, 1), (1, 2)] := by
  decide

/-- C1, amended: for every input sequence, key function and reverse flag,
`bubble_sort`, `insertion_sort`, `merge_sort` and `quick_sort` return exactly
the canonical stable sort of the input (which is a permutation of it), while
`selection_sort` returns a permutation of the input that is sorted under the
ordering policy but is not in general the stable one. -/
theorem c1_amended {T K : Type} [LinearOrder K] (l : List T) (k : T → K)
    (r : Bool) :
    bubble_sort l k r = canonicalSort k r l ∧
    insertion_sort l k r = canonicalSort k r l ∧
    merge_sort l k r = canonicalSort k r l ∧
    quick_sort l k r = canonicalSort k r l ∧
    List.Perm (canonicalSort k r l) l ∧
    List.Perm (selection_sort l k r) l ∧
    (selection_sort l k r).Pairwise (rle k r) :=
  ⟨bubble_eq_canonical l k r, insertion_eq_canonical l k r,
    merge_eq_canonical l k r, quick_eq_canonical l k r,
    canonicalSort_perm k r l, selection_sort_perm l k r,
    selection_sort_sorted l k r⟩

/-- C2, counterexample: the claim says all five algorithms are stable, but on
`[(2, 0), (2, 1), (1, 2)]` with key = first component `selection_sort`
reverses the relative order of the two elements with key 2. -/
theorem c2_counterexample :
    ¬ (keyFilter (fun p : Nat × Nat => p.1) 2
        (selection_sort [(2, 0), (2, 1), (1, 2)] (fun p : Nat × Nat => p.1) false) =
      keyFilter (fun p : Nat × Nat => p.1) 2 [(2, 0), (2, 1), (1, 2)]) := by
  decide

/-- C2, amended: `bubble_sort`, `insertion_sort`, `merge_sort` and
`quick_sort` are stable — for every key value, the sublist of elements with
that key is returned exactly in input order — but `selection_sort` is not. -/
theorem c2_amended {T K : Type} [LinearOrder K] (l : List T) (k : T → K)
    (r : Bool) (c : K) :
    keyFilter k c (bubble_sort l k r) = keyFilter k c l ∧
    keyFilter k c (insertion_sort l k r) = keyFilter k c l ∧
    keyFilter k c (merge_sort l k r) = keyFilter k c l ∧
    keyFilter k c (quick_sort l k r) = keyFilter k c l :=
  ⟨bubble_sort_keyFilter l k r c, insertion_sort_keyFilter l k r c,
    merge_sort_keyFilter l k r c, quick_sort_keyFilter l k r c⟩

/-- C3, counterexample: the claim says `A(S, reverse=true)` equals the
reversal of the canonical ascending sort, but already `bubble_sort` on the
two equal-key elements `[(0, 0), (0, 1)]` returns them in input order (equal
keys never swap), while reversing the ascending sort flips them. -/
theorem c3_counterexample :
    bubble_sort [(0, 0), (0, 1)] (fun p : Nat × Nat => p.1) true ≠
      (canonicalSort (fun p : Nat × Nat => p.1) false [(0, 0), (0, 1)]).reverse := by
  decide

/-- C3, amended: with `reverse=true`, `bubble_sort`, `insertion_sort`,
`merge_sort` and `quick_sort` return the canonical *stable descending* sort
(the canonical sort under the reversed policy), which agrees with
`reverse(canonicalSort(S))` only when no two elements share a key. -/
theorem c3_amended {T K : Type} [LinearOrder K] (l : List T) (k : T → K) :
    bubble_sort l k true = canonicalSort k true l ∧
    insertion_sort l k true = canonicalSort k true l ∧
    merge_sort l k true = canonicalSort k true l ∧
    quick_sort l k true = canonicalSort k true l :=
  ⟨bubble_eq_canonical l k true, insertion_eq_canonical l k true,
    merge_eq_canonical l k true, quick_eq_canonical l k true⟩

/-- C5: the ordering policy `_should_swap` returns true iff `keyA > keyB`
when `reverse` is false, true iff `keyA < keyB` when `reverse` is true, and
false on equal keys under both flags. -/
theorem c5_should_swap {K : Type} [LinearOrder K] (a b : K) (r : Bool) :
    (should_swap a b false = true ↔ a > b) ∧
    (should_swap a b true = true ↔ a < b) ∧
    should_swap a a r = false :=
  ⟨by simp [should_swap], by simp [should_swap], should_swap_self a r⟩

/-- C6: a Strategy selector's `sort` returns exactly what the held strategy
returns on the same arguments, with no transformation; after the held
strategy is reassigned the next call returns the newly assigned algorithm's
result, while calls made before the swap returned the previous algorithm's
result (shown both for arbitrary strategies and for the concrete
bubble-to-quick swap). -/
theorem c6_selector_forwards {T K : Type} [LinearOrder K]
    (s1 s2 : List T → (T → K) → Bool → List T) (data da2 : List T)
    (k k2 : T → K) (r r2 : Bool) :
    (Sorter.mk s1).sort data k r = s1 data k r ∧
    ({ Sorter.mk s1 with strategy := s2 }).sort da2 k2 r2 = s2 da2 k2 r2 ∧
    (Sorter.mk (fun (d : List T) (kk : T → K) (rr : Bool) =>
      bubble_sort d kk rr)).sort data k r = bubble_sort data k r ∧
    ({ Sorter.mk (fun (d : List T) (kk : T → K) (rr : Bool) =>
        bubble_sort d kk rr) with
        strategy := fun d kk rr => quick_sort d kk rr }).sort data k r =
      quick_sort data k r :=
  ⟨rfl, rfl, rfl, rfl⟩

/-- C7: for each of the five algorithms, empty and single-element inputs are
not an error: the algorithm returns a sequence equal to the input, and in
particular `A([]) = []`. -/
theorem c7_trivial_inputs {T K : Type} [LinearOrder K] (k : T → K) (r : Bool)
    (x : T) :
    bubble_sort ([] : List T) k r = [] ∧ bubble_sort [x] k r = [x] ∧
    selection_sort ([] : List T) k r = [] ∧ selection_sort [x] k r = [x] ∧
    insertion_sort ([] : List T) k r = [] ∧ insertion_sort [x] k r = [x] ∧
    merge_sort ([] : List T) k r = [] ∧ merge_sort [x] k r = [x] ∧
    quick_sort ([] : List T) k r = [] ∧ quick_sort [x] k r = [x] :=
  ⟨rfl, rfl, rfl, rfl, rfl, rfl, msort_small k r (by simp),
    msort_small k r (by simp), qsort_small k r (by simp),
    qsort_small k r (by simp)⟩

/-- C8: every one of the five algorithms sorts
`["pear", "banana", "fig", "apple"]` by string length (ascending, stable)
into `["fig", "pear", "apple", "banana"]`. -/
theorem c8_length_key_scenario :
    bubble_sort ["pear", "banana", "fig", "apple"] String.length false =
      ["fig", "pear", "apple", "banana"] ∧
    selection_sort ["pear", "banana", "fig", "apple"] String.length false =
      ["fig", "pear", "apple", "banana"] ∧
    insertion_sort ["pear", "banana", "fig", "apple"] String.length false =
      ["fig", "pear", "apple", "banana"] ∧
    merge_sort ["pear", "banana", "fig", "apple"] String.length false =
      ["fig", "pear", "apple", "banana"] ∧
    quick_sort ["pear", "banana", "fig", "apple"] String.length false =
      ["fig", "pear", "apple", "banana"] := by
  refine ⟨by decide, by decide, by decide, ?_, ?_⟩
  · rw [merge_eq_canonical]
    decide
  · rw [quick_eq_canonical]
    decide

/-- C9: each of the five algorithms is idempotent — applying it to its own
output under the same key function and reverse flag returns the output
unchanged. -/
theorem c9_idempotent {T K : Type} [LinearOrder K] (l : List T) (k : T → K)
    (r : Bool) :
    bubble_sort (bubble_sort l k r) k r = bubble_sort l k r ∧
    selection_sort (selection_sort l k r) k r = selection_sort l k r ∧
    insertion_sort (insertion_sort l k r) k r = insertion_sort l k r ∧
    merge_sort (merge_sort l k r) k r = merge_sort l k r ∧
    quick_sort (quick_sort l k r) k r = quick_sort l k r :=
  ⟨(bubble_eq_canonical _ k r).trans
      (canonicalSort_of_sorted (bubble_sort_sorted l k r)),
    selection_sort_of_sorted (selection_sort_sorted l k r),
    (insertion_eq_canonical _ k r).trans
      (canonicalSort_of_sorted (insertion_sort_sorted l k r)),
    (merge_eq_canonical _ k r).trans
      (canonicalSort_of_sorted (merge_sort_sorted l k r)),
    (quick_eq_canonical _ k r).trans
      (canonicalSort_of_sorted (quick_sort_sorted l k r))⟩

/-- C10: `merge_sort` and `quick_sort` terminate on every finite input —
merge sort splits any list of length at least 2 into two strictly shorter
halves, and quick sort's left and right buckets contain no element whose key
equals the pivot key and (because the pivot is an element of the list) are
strictly shorter than the partitioned list. -/
theorem c10_termination {T K : Type} [LinearOrder K] (k : T → K) (r : Bool)
    (l : List T) (h : 2 ≤ l.length) :
    (l.take (l.length / 2)).length < l.length ∧
    (l.drop (l.length / 2)).length < l.length ∧
    ∀ pk : K, (∀ x ∈ qsLeft k r pk l, k x ≠ pk) ∧
      (∀ x ∈ qsRight k r pk l, k x ≠ pk) ∧
      (pk ∈ l.map k →
        (qsLeft k r pk l).length < l.length ∧
        (qsRight k r pk l).length < l.length) := by
  refine ⟨?_, ?_, fun pk =>
    ⟨fun x hx => (mem_qsLeft.mp hx).2.1,
      fun x hx => (mem_qsRight.mp hx).2.1, fun hpk => ?_⟩⟩
  · rw [List.length_take]
    omega
  · rw [List.length_drop]
    omega
  · obtain ⟨x, hxl, hxk⟩ := List.mem_map.mp hpk
    exact ⟨hxk ▸ qsLeft_length_lt k r l x hxl,
      hxk ▸ qsRight_length_lt k r l x hxl⟩

/-- C10, witness: the termination bounds evaluated at the concrete input
`[5, 1, 2]` with the identity key. -/
theorem c10_termination_witness :
    2 ≤ ([5, 1, 2] : List Nat).length ∧
    ((([5, 1, 2] : List Nat).take (([5, 1, 2] : List Nat).length / 2)).length <
        ([5, 1, 2] : List Nat).length ∧
      (([5, 1, 2] : List Nat).drop (([5, 1, 2] : List Nat).length / 2)).length <
        ([5, 1, 2] : List Nat).length ∧
      ∀ pk : Nat,
        (∀ x ∈ qsLeft (fun n : Nat => n) false pk [5, 1, 2], x ≠ pk) ∧
        (∀ x ∈ qsRight (fun n : Nat => n) false pk [5, 1, 2], x ≠ pk) ∧
        (pk ∈ ([5, 1, 2] : List Nat).map (fun n : Nat => n) →
          (qsLeft (fun n : Nat => n) false pk [5, 1, 2]).length <
            ([5, 1, 2] : List Nat).length ∧
          (qsRight (fun n : Nat => n) false pk [5, 1, 2]).length <
            ([5, 1, 2] : List Nat).length)) :=
  ⟨by decide, c10_termination (fun n : Nat => n) false [5, 1, 2] (by decide)⟩

end SortCore
